import Mathlib

/-!
Verification of the gateway's RPC-over-broker layer of the SOA shopping-list
application (`packages/api/index.js`), together with the JSON wire encoding
used by `sendRpc` and the worker request handlers, the HTTP route handlers,
and the bounded-retry broker connection loop (`setupRabbitMQ`).

The JavaScript source is embedded shallowly:
* JSON values exchanged on the wire are the inductive `JVal` (numbers are
  modelled as sign/integer-digits/fraction-digits decimals, strings as
  character lists); `encodeJ` mirrors `JSON.stringify` on such values and
  `parseVal`/`decodeJson` mirror `JSON.parse`.
* the pending-request book-keeping of `sendRpc` and the reply-queue consumer
  installed by `setupRabbitMQ` are a transition system `step` over `RpcState`,
  whose events are waiter registration, reply delivery and timer expiry;
* the Express route handlers are pure functions from the outcome of the
  awaited RPC promise to an HTTP status plus the list of Redis-published
  fan-out events;
* the connection retry loop is the recursive `connectLoop`.
-/

/-! ## Decimal digits -/

def digitChar (d : Nat) : Char := Char.ofNat (48 + d)

def isDigitC (c : Char) : Bool := 48 ≤ c.toNat && c.toNat ≤ 57

def digitVal (c : Char) : Nat := c.toNat - 48

def digitsOfNatAux : Nat → Nat → List Nat
  | 0, _ => []
  | fuel + 1, n => if n < 10 then [n] else digitsOfNatAux fuel (n / 10) ++ [n % 10]

def digitsOfNat (n : Nat) : List Nat := digitsOfNatAux (n + 1) n

def encNat (n : Nat) : List Char := (digitsOfNat n).map digitChar

def ofDigits (ds : List Nat) : Nat := ds.foldl (fun a d => 10 * a + d) 0

def takeDigits : List Char → List Nat × List Char
  | [] => ([], [])
  | c :: rest =>
    if isDigitC c then
      (digitVal c :: (takeDigits rest).1, (takeDigits rest).2)
    else ([], c :: rest)

/-! ## JSON values

`JVal` models the JSON values produced and consumed by `JSON.stringify` /
`JSON.parse` in the gateway and the workers.  A number is a sign, the digits
of its integer part (as a `Nat`), and the list of its fractional digits, so
that e.g. the price `2.5` of the spec's example payload is
`jnum false 2 [5]`.  Object member lists are a second mutual inductive so
that structural induction is available. -/

mutual
inductive JVal : Type where
  | jnull : JVal
  | jbool : Bool → JVal
  | jnum : Bool → Nat → List Nat → JVal
  | jstr : List Char → JVal
  | jobj : JMembers → JVal

inductive JMembers : Type where
  | mnil : JMembers
  | mcons : List Char → JVal → JMembers → JMembers
end

deriving instance DecidableEq for JVal
deriving instance DecidableEq for JMembers

mutual
def jsize : JVal → Nat
  | .jobj ms => 1 + msize ms
  | _ => 1

def msize : JMembers → Nat
  | .mnil => 0
  | .mcons _ v t => 1 + jsize v + msize t
end

mutual
/-- Well-formedness of the embedding: fractional digits are decimal digits and
strings carry no control characters (which `JSON.stringify` would escape with
sequences beyond the quote/backslash escapes modelled here). -/
def validJ : JVal → Bool
  | .jnull => true
  | .jbool _ => true
  | .jnum _ _ fr => fr.all (fun d => d < 10)
  | .jstr s => s.all (fun c => 32 ≤ c.toNat)
  | .jobj ms => validM ms

def validM : JMembers → Bool
  | .mnil => true
  | .mcons k v t => k.all (fun c => 32 ≤ c.toNat) && validJ v && validM t
end

/-! ## Encoder (JSON.stringify) -/

def escChar (c : Char) : List Char :=
  if c = '"' ∨ c = '\\' then ['\\', c] else [c]

def encStrBody : List Char → List Char
  | [] => []
  | c :: rest => escChar c ++ encStrBody rest

def encStr (s : List Char) : List Char := '"' :: (encStrBody s ++ ['"'])

def fracPart : List Nat → List Char
  | [] => []
  | f :: fs => '.' :: (f :: fs).map digitChar

mutual
def encodeJ : JVal → List Char
  | .jnull => ['n', 'u', 'l', 'l']
  | .jbool true => ['t', 'r', 'u', 'e']
  | .jbool false => ['f', 'a', 'l', 's', 'e']
  | .jnum neg ip fr => (if neg then ['-'] else []) ++ encNat ip ++ fracPart fr
  | .jstr s => encStr s
  | .jobj ms => '\x7b' :: encodeMembersTail ms

def encodeMembersTail : JMembers → List Char
  | .mnil => ['\x7d']
  | .mcons k v .mnil => encStr k ++ ':' :: (encodeJ v ++ ['\x7d'])
  | .mcons k v (.mcons k2 v2 t) =>
      encStr k ++ ':' :: (encodeJ v ++ ',' :: encodeMembersTail (.mcons k2 v2 t))
end

/-! ## Parser (JSON.parse, restricted to the encoder's output format) -/

def parseStrBody : List Char → Option (List Char × List Char)
  | [] => none
  | c :: rest =>
    if c = '\\' then
      match rest with
      | [] => none
      | e :: rest2 =>
        match parseStrBody rest2 with
        | some (s, r) => some (e :: s, r)
        | none => none
    else if c = '"' then some ([], rest)
    else
      match parseStrBody rest with
      | some (s, r) => some (c :: s, r)
      | none => none

def parseNumBody (cs : List Char) : Option ((Nat × List Nat) × List Char) :=
  match takeDigits cs with
  | ([], _) => none
  | (d :: ds, rest) =>
    match rest with
    | [] => some ((ofDigits (d :: ds), []), [])
    | c :: r2 =>
      if c = '.' then
        match takeDigits r2 with
        | ([], _) => none
        | (f :: fs, r3) => some ((ofDigits (d :: ds), f :: fs), r3)
      else some ((ofDigits (d :: ds), []), c :: r2)

def parseAfterN : List Char → Option (JVal × List Char)
  | 'u' :: 'l' :: 'l' :: r2 => some (.jnull, r2)
  | _ => none

def parseAfterT : List Char → Option (JVal × List Char)
  | 'r' :: 'u' :: 'e' :: r2 => some (.jbool true, r2)
  | _ => none

def parseAfterF : List Char → Option (JVal × List Char)
  | 'a' :: 'l' :: 's' :: 'e' :: r2 => some (.jbool false, r2)
  | _ => none

def parseStrVal (r : List Char) : Option (JVal × List Char) :=
  match parseStrBody r with
  | some (s, r2) => some (.jstr s, r2)
  | none => none

def parseNumVal (neg : Bool) (cs : List Char) : Option (JVal × List Char) :=
  match parseNumBody cs with
  | some ((ip, fr), r2) => some (.jnum neg ip fr, r2)
  | none => none

mutual
def parseVal : Nat → List Char → Option (JVal × List Char)
  | 0, _ => none
  | fuel + 1, cs =>
    match cs with
    | [] => none
    | c :: r =>
      if c = 'n' then parseAfterN r
      else if c = 't' then parseAfterT r
      else if c = 'f' then parseAfterF r
      else if c = '"' then parseStrVal r
      else if c = '\x7b' then parseObjBody fuel r
      else if c = '-' then parseNumVal true r
      else if isDigitC c then parseNumVal false (c :: r)
      else none
termination_by fuel _ => (fuel, 0)

def parseObjBody (fuel : Nat) (r : List Char) : Option (JVal × List Char) :=
  match r with
  | '\x7d' :: r2 => some (.jobj .mnil, r2)
  | _ =>
    match parseMembers fuel r with
    | some (ms, r2) => some (.jobj ms, r2)
    | none => none
termination_by (fuel, 3)

def parseMembers : Nat → List Char → Option (JMembers × List Char)
  | 0, _ => none
  | fuel + 1, cs =>
    match cs with
    | [] => none
    | c :: r =>
      if c = '"' then afterKey fuel (parseStrBody r)
      else none
termination_by fuel _ => (fuel, 2)

def afterKey (fuel : Nat) (kr : Option (List Char × List Char)) :
    Option (JMembers × List Char) :=
  match kr with
  | none => none
  | some (k, r1) =>
    match r1 with
    | ':' :: r2 => afterColon fuel k r2
    | _ => none
termination_by (fuel, 6)

def afterColon (fuel : Nat) (k : List Char) (r2 : List Char) :
    Option (JMembers × List Char) :=
  match parseVal fuel r2 with
  | none => none
  | some (v, r3) => afterValue fuel k v r3
termination_by (fuel, 5)

def afterValue (fuel : Nat) (k : List Char) (v : JVal) (r3 : List Char) :
    Option (JMembers × List Char) :=
  match r3 with
  | ',' :: r4 =>
    match parseMembers fuel r4 with
    | none => none
    | some (ms, r5) => some (.mcons k v ms, r5)
  | '\x7d' :: r4 => some (.mcons k v .mnil, r4)
  | _ => none
termination_by (fuel, 4)
end

/-- `JSON.parse` on a whole message body: the parse must consume the input. -/
def decodeJson (cs : List Char) : Option JVal :=
  match parseVal (cs.length + 1) cs with
  | some (v, []) => some v
  | _ => none

/-! ## Predicates used by the parser lemmas -/

def noDigitHead : List Char → Bool
  | [] => true
  | c :: _ => !isDigitC c

def numStop : List Char → Bool
  | [] => true
  | c :: _ => !isDigitC c && c != '.'

/-! ## Field access on parsed JSON (JavaScript property access) -/

def mfind : JMembers → List Char → Option JVal
  | .mnil, _ => none
  | .mcons k v t, key => if k = key then some v else mfind t key

/-- `env.field` in JavaScript: `none` models `undefined`. -/
def jget : JVal → List Char → Option JVal
  | .jobj ms, key => mfind ms key
  | _, _ => none

/-- `response.status === 'success'` as tested by the route handlers. -/
def isSuccess (env : JVal) : Bool :=
  jget env "status".toList == some (.jstr "success".toList)

/-! ## The pending-request correlator of `sendRpc` / `setupRabbitMQ`

`pendingItemRequests` / `pendingUserRequests` are JavaScript `Map`s from a
correlation id to the `resolve` function of one call's promise.  We identify
each call (and hence its resolver) by a numeric call id, and model the `Map`
as an association list with unique keys: `mset` is `Map.set`, `mget` is
`Map.get`, `mdel` is `Map.delete`.  The `resolved` and `timedOut` lists
record, per call id, every promise settlement that ever fired, so that
"exactly one of resolve / timeout-reject" is expressible as a count. -/

def mget : List (String × Nat) → String → Option Nat
  | [], _ => none
  | (k, v) :: t, c => if k = c then some v else mget t c

def mset (m : List (String × Nat)) (c : String) (id : Nat) : List (String × Nat) :=
  (c, id) :: m.filter (fun p => p.1 != c)

def mdel (m : List (String × Nat)) (c : String) : List (String × Nat) :=
  m.filter (fun p => p.1 != c)

structure RpcState where
  pending : List (String × Nat)
  resolved : List (Nat × JVal)
  timedOut : List (Nat × String)
deriving DecidableEq

/-- Events touching one correlator:
* `register c id` — `pendingMap.set(correlationId, resolve)` in `sendRpc`
  (lines 134–135), for the call `id` that generated token `c`;
* `reply c env` — delivery of an already-parsed reply envelope `env` with
  correlation id `c` to the consumer installed by `setupRabbitMQ`
  (lines 91–101);
* `timeout c id` — the 5000 ms timer of call `id` firing (lines 146–151);
  the timer closure captures its own call's `reject` but checks and deletes
  the map entry under `c`. -/
inductive RpcEv where
  | register : String → Nat → RpcEv
  | reply : String → JVal → RpcEv
  | timeout : String → Nat → RpcEv
deriving DecidableEq

def step (s : RpcState) : RpcEv → RpcState
  | .register c id => { s with pending := mset s.pending c id }
  | .reply c env =>
    match mget s.pending c with
    | some id =>
      { s with pending := mdel s.pending c, resolved := (id, env) :: s.resolved }
    | none => s
  | .timeout c selfId =>
    match mget s.pending c with
    | some _ =>
      { s with pending := mdel s.pending c,
               timedOut := (selfId, "RPC timeout") :: s.timedOut }
    | none => s

def runEvs (s : RpcState) (evs : List RpcEv) : RpcState := evs.foldl step s

/-- Number of settlements (resolutions plus rejections) of call `id`. -/
def outcomes (s : RpcState) (id : Nat) : Nat :=
  s.resolved.countP (fun p => p.1 == id) + s.timedOut.countP (fun p => p.1 == id)

/-- The raw consume callback of `setupRabbitMQ` on one delivered message:
look up the resolver under the message's correlation id; if present, run
`resolver(JSON.parse(content))` and delete the entry.  `JSON.parse` of a
malformed body throws, which surfaces as `.error` before the resolve and the
delete happen; resolving itself is total. -/
def consumeRaw (s : RpcState) (c : String) (content : List Char) :
    Except String RpcState :=
  match mget s.pending c with
  | none => .ok s
  | some id =>
    match decodeJson content with
    | some env =>
      .ok { s with pending := mdel s.pending c, resolved := (id, env) :: s.resolved }
    | none => .error "SyntaxError: Unexpected token in JSON"

/-- `register` then `timeout` for each listed call: the event trace of many
calls whose replies never arrive. -/
def timeoutCycles : List (String × Nat) → List RpcEv
  | [] => []
  | p :: t => .register p.1 p.2 :: .timeout p.1 p.2 :: timeoutCycles t

/-! ## Route handlers

Each Express handler is modelled as a function from the outcome of its
awaited `sendRpc` promise to the HTTP status it sends plus the list of
fan-out events it publishes over Redis (`broadcast`).  `FanEvent.payload`
is the value attached to the event (`item` for add/update, `id` for delete);
`none` models a JavaScript `undefined` field, dropped by `JSON.stringify`. -/

inductive RpcOutcome where
  | resolved : JVal → RpcOutcome
  | timeoutErr : RpcOutcome
deriving DecidableEq

structure FanEvent where
  type : List Char
  payload : Option JVal
deriving DecidableEq

structure RouteOut where
  httpStatus : Nat
  published : List FanEvent
deriving DecidableEq

/-- `app.post('/signup')` (lines 185–192). -/
def handleSignup : RpcOutcome → RouteOut
  | .resolved _ => ⟨201, []⟩
  | .timeoutErr => ⟨504, []⟩

/-- `app.post('/login')` (lines 194–203). -/
def handleLogin : RpcOutcome → RouteOut
  | .resolved env => if isSuccess env then ⟨200, []⟩ else ⟨401, []⟩
  | .timeoutErr => ⟨504, []⟩

/-- `app.post('/items')` (lines 217–229). -/
def handleCreateItem : RpcOutcome → RouteOut
  | .resolved env => ⟨201, [⟨"item_added".toList, jget env "data".toList⟩]⟩
  | .timeoutErr => ⟨504, []⟩

/-- `app.put('/items/:id')` (lines 231–248). -/
def handleUpdateItem : RpcOutcome → RouteOut
  | .resolved env =>
    if isSuccess env then ⟨200, [⟨"item_updated".toList, jget env "data".toList⟩]⟩
    else ⟨404, []⟩
  | .timeoutErr => ⟨504, []⟩

/-- `app.delete('/items/:id')` (lines 253–271). -/
def handleDeleteItem (id : Nat) : RpcOutcome → RouteOut
  | .resolved env =>
    if isSuccess env then ⟨204, [⟨"item_deleted".toList, some (.jnum false id [])⟩]⟩
    else ⟨404, []⟩
  | .timeoutErr => ⟨504, []⟩

/-! ## Envelopes on the wire -/

/-- `JSON.stringify({ command, payload })` sent by `sendRpc` (line 139). -/
def requestEnvelope (cmd : List Char) (payload : JVal) : JVal :=
  .jobj (.mcons "command".toList (.jstr cmd) (.mcons "payload".toList payload .mnil))

/-- A worker reply `{ status, data }` as re-encoded by `handleRequest`
(item-service lines 172–176). -/
def replyEnvelope (status : List Char) (data : JVal) : JVal :=
  .jobj (.mcons "status".toList (.jstr status) (.mcons "data".toList data .mnil))

/-- The spec's example payload `{ name: 'Milk', price: 2.5, quantity: 2 }`,
exercising string, decimal number, integer number, boolean, null and nested
object fields. -/
def milkPayload : JVal :=
  .jobj (.mcons "name".toList (.jstr "Milk".toList)
    (.mcons "price".toList (.jnum false 2 [5])
      (.mcons "quantity".toList (.jnum false 2 [])
        (.mcons "bought".toList (.jbool false)
          (.mcons "note".toList .jnull
            (.mcons "meta".toList
              (.jobj (.mcons "tag".toList (.jstr "dairy".toList) .mnil)) .mnil))))))

/-- A domain-error reply of the item service, e.g.
`{ status: 'error', message: 'Item not found' }`. -/
def itemErrEnv : JVal :=
  .jobj (.mcons "status".toList (.jstr "error".toList)
    (.mcons "message".toList (.jstr "Item not found".toList) .mnil))

/-- The duplicate-username error reply of the user service
(`{ status: 'error', message: 'Username already exists' }`). -/
def userErrEnv : JVal :=
  .jobj (.mcons "status".toList (.jstr "error".toList)
    (.mcons "message".toList (.jstr "Username already exists".toList) .mnil))

/-! ## Broker connection retry loop (`setupRabbitMQ`, lines 79–129)

`ok i` tells whether the `i`-th connection attempt succeeds.  The `while
(retries < maxRetries)` loop is run with fuel `maxRetries - retries`; the
gateway calls it with `maxRetries = 5` and `retries = 0` and waits a fixed
`retryBackoffMs` between attempts. -/

inductive ConnOutcome where
  | connected : Nat → ConnOutcome
  | fatal : Nat → ConnOutcome
deriving DecidableEq

def connectLoopAux (ok : Nat → Bool) : Nat → Nat → ConnOutcome
  | 0, retries => .fatal retries
  | fuel + 1, retries =>
    if ok retries then .connected (retries + 1)
    else connectLoopAux ok fuel (retries + 1)

def connectLoop (ok : Nat → Bool) (maxRetries : Nat) : ConnOutcome :=
  connectLoopAux ok maxRetries 0

def maxRetriesGateway : Nat := 5

def retryBackoffMs : Nat := 5000

def rpcTimeoutMs : Nat := 5000

inductive ServerPhase where
  | listening
  | exited
deriving DecidableEq

/-- `await setupRabbitMQ(); server.listen(port, ...)` (lines 276–280):
`process.exit(1)` in the fatal branch prevents the listen call. -/
def gatewayStart (ok : Nat → Bool) : ServerPhase :=
  match connectLoop ok maxRetriesGateway with
  | .connected _ => .listening
  | .fatal _ => .exited

/-! ## Correlator trace predicates -/

/-- Every pending entry resolving to call `id` is registered under token `c`:
call `id`'s resolver is reachable only through its own correlation id. -/
def onlyUnder (m : List (String × Nat)) (c : String) (id : Nat) : Prop :=
  ∀ k v, (k, v) ∈ m → v = id → k = c

/-- Call `id` is waiting under token `c` and has not settled yet. -/
def WaiterLive (s : RpcState) (c : String) (id : Nat) : Prop :=
  mget s.pending c = some id ∧ onlyUnder s.pending c id ∧ outcomes s id = 0

/-- Call `id` has settled exactly once and neither its token nor its resolver
is still reachable from the pending map. -/
def WaiterDone (s : RpcState) (c : String) (id : Nat) : Prop :=
  (∀ k v, (k, v) ∈ s.pending → v ≠ id ∧ k ≠ c) ∧ outcomes s id = 1

/-- Does the event deliver a reply or a timer expiry for token `c`? -/
def targets (c : String) : RpcEv → Bool
  | .register _ _ => false
  | .reply c2 _ => c2 == c
  | .timeout c2 _ => c2 == c

/-- Well-formedness of an event w.r.t. the call `id` owning token `c`:
later registrations use fresh tokens and fresh call ids (the generator makes
collisions impossible), and a timer for token `c` belongs to call `id` and to
no other call. -/
def freshEv (c : String) (id : Nat) : RpcEv → Prop
  | .register c2 id2 => c2 ≠ c ∧ id2 ≠ id
  | .reply _ _ => True
  | .timeout c2 id2 => c2 = c ↔ id2 = id

def freshTrace (c : String) (id : Nat) (evs : List RpcEv) : Prop :=
  ∀ e ∈ evs, freshEv c id e

/-- Token uniqueness: the pending map never holds two entries for one
correlation id. -/
def keysNodup (m : List (String × Nat)) : Prop := (m.map Prod.fst).Nodup

/-! # Helper lemmas -/

/-! ## Decimal digit lemmas -/

theorem digitsOfNatAux_succ (fuel n : Nat) :
    digitsOfNatAux (fuel + 1) n =
      if n < 10 then [n] else digitsOfNatAux fuel (n / 10) ++ [n % 10] := rfl

theorem digitsOfNatAux_congr : ∀ n f1 f2, n < f1 → n < f2 →
    digitsOfNatAux f1 n = digitsOfNatAux f2 n := by
  intro n
  induction n using Nat.strong_induction_on with
  | _ n ih =>
    intro f1 f2 h1 h2
    match f1, f2 with
    | g1 + 1, g2 + 1 =>
      rw [digitsOfNatAux_succ, digitsOfNatAux_succ]
      by_cases h10 : n < 10
      · simp [h10]
      · have hdiv : n / 10 < n := Nat.div_lt_self (by omega) (by omega)
        simp only [h10, if_false]
        rw [ih (n / 10) hdiv g1 g2 (by omega) (by omega)]

theorem digitsOfNat_unfold (n : Nat) :
    digitsOfNat n = if n < 10 then [n] else digitsOfNat (n / 10) ++ [n % 10] := by
  show digitsOfNatAux (n + 1) n = _
  rw [digitsOfNatAux_succ]
  by_cases h10 : n < 10
  · simp [h10]
  · have hdiv : n / 10 < n := Nat.div_lt_self (by omega) (by omega)
    simp only [h10, if_false]
    show digitsOfNatAux n (n / 10) ++ _ = digitsOfNatAux (n / 10 + 1) (n / 10) ++ _
    rw [digitsOfNatAux_congr (n / 10) n (n / 10 + 1) hdiv (by omega)]

theorem digitsOfNat_ne_nil (n : Nat) : digitsOfNat n ≠ [] := by
  rw [digitsOfNat_unfold]
  by_cases h10 : n < 10 <;> simp [h10]

theorem digitsOfNat_lt (n : Nat) : ∀ d ∈ digitsOfNat n, d < 10 := by
  induction n using Nat.strong_induction_on with
  | _ n ih =>
    rw [digitsOfNat_unfold]
    by_cases h10 : n < 10
    · simp [h10]
    · have hdiv : n / 10 < n := Nat.div_lt_self (by omega) (by omega)
      simp only [h10, if_false]
      intro d hd
      rcases List.mem_append.mp hd with h | h
      · exact ih (n / 10) hdiv d h
      · simp at h
        omega

theorem ofDigits_append_single (xs : List Nat) (d : Nat) :
    ofDigits (xs ++ [d]) = 10 * ofDigits xs + d := by
  simp [ofDigits, List.foldl_append]

theorem ofDigits_digitsOfNat (n : Nat) : ofDigits (digitsOfNat n) = n := by
  induction n using Nat.strong_induction_on with
  | _ n ih =>
    rw [digitsOfNat_unfold]
    by_cases h10 : n < 10
    · simp [h10, ofDigits]
    · have hdiv : n / 10 < n := Nat.div_lt_self (by omega) (by omega)
      simp only [h10, if_false]
      rw [ofDigits_append_single, ih (n / 10) hdiv]
      omega

theorem isDigitC_digitChar : ∀ d < 10, isDigitC (digitChar d) = true := by decide

theorem digitVal_digitChar : ∀ d < 10, digitVal (digitChar d) = d := by decide

/-! ## takeDigits and parseNumBody lemmas -/

theorem takeDigits_noDigit (cs : List Char) (h : noDigitHead cs = true) :
    takeDigits cs = ([], cs) := by
  cases cs with
  | nil => rfl
  | cons c r =>
    simp only [noDigitHead, Bool.not_eq_eq_eq_not, Bool.not_true] at h
    simp [takeDigits, h]

theorem takeDigits_append (ds : List Nat) (rest : List Char)
    (h : ∀ d ∈ ds, d < 10) (hr : noDigitHead rest = true) :
    takeDigits (ds.map digitChar ++ rest) = (ds, rest) := by
  induction ds with
  | nil => simpa using takeDigits_noDigit rest hr
  | cons d t ih =>
    have hd : d < 10 := h d (by simp)
    have ht : ∀ x ∈ t, x < 10 := fun x hx => h x (by simp [hx])
    simp [takeDigits, isDigitC_digitChar d hd, digitVal_digitChar d hd, ih ht]

theorem numStop_noDigitHead (cs : List Char) (h : numStop cs = true) :
    noDigitHead cs = true := by
  cases cs with
  | nil => rfl
  | cons c r =>
    simp only [numStop, Bool.and_eq_true] at h
    simp [noDigitHead, h.1]

theorem parseNumBody_enc (ip : Nat) (fr : List Nat) (rest : List Char)
    (hfr : ∀ d ∈ fr, d < 10) (hrest : numStop rest = true) :
    parseNumBody (encNat ip ++ (fracPart fr ++ rest)) = some ((ip, fr), rest) := by
  obtain ⟨d, ds, hds⟩ : ∃ d ds, digitsOfNat ip = d :: ds := by
    cases h : digitsOfNat ip with
    | nil => exact absurd h (digitsOfNat_ne_nil ip)
    | cons d ds => exact ⟨d, ds, rfl⟩
  have hip : ofDigits (d :: ds) = ip := by rw [← hds, ofDigits_digitsOfNat]
  cases fr with
  | nil =>
    simp only [fracPart, List.nil_append]
    rw [parseNumBody, encNat,
      takeDigits_append (digitsOfNat ip) rest (digitsOfNat_lt ip)
        (numStop_noDigitHead rest hrest), hds]
    cases rest with
    | nil => simp [hip]
    | cons c r2 =>
      simp only [numStop, Bool.and_eq_true, bne_iff_ne, ne_eq] at hrest
      simp [hrest.2, hip]
  | cons f fs =>
    simp only [fracPart]
    rw [parseNumBody, encNat]
    have hmid : noDigitHead ('.' :: ((f :: fs).map digitChar ++ rest)) = true := rfl
    rw [show (digitsOfNat ip).map digitChar ++ ('.' :: (f :: fs).map digitChar ++ rest)
        = (digitsOfNat ip).map digitChar ++ ('.' :: ((f :: fs).map digitChar ++ rest)) by simp]
    rw [takeDigits_append (digitsOfNat ip) _ (digitsOfNat_lt ip) hmid, hds]
    simp only [if_pos rfl]
    rw [takeDigits_append (f :: fs) rest hfr (numStop_noDigitHead rest hrest)]
    simp [hip]

/-! ## parseStrBody lemmas -/

theorem parseStrBody_cons (c : Char) (rest : List Char) :
    parseStrBody (c :: rest) =
      if c = '\\' then
        match rest with
        | [] => none
        | e :: rest2 =>
          match parseStrBody rest2 with
          | some (s, r) => some (e :: s, r)
          | none => none
      else if c = '"' then some ([], rest)
      else
        match parseStrBody rest with
        | some (s, r) => some (c :: s, r)
        | none => none := by
  conv_lhs => rw [parseStrBody.eq_def]

theorem parseStrBody_enc (s rest : List Char) :
    parseStrBody (encStrBody s ++ ('"' :: rest)) = some (s, rest) := by
  induction s with
  | nil =>
    simp only [encStrBody, List.nil_append]
    rw [parseStrBody_cons, if_neg (by decide), if_pos rfl]
  | cons c t ih =>
    by_cases hq : c = '"' ∨ c = '\\'
    · have henc : encStrBody (c :: t) ++ ('"' :: rest)
          = '\\' :: c :: (encStrBody t ++ ('"' :: rest)) := by
        simp [encStrBody, escChar, hq]
      rw [henc, parseStrBody_cons, if_pos rfl]
      simp [ih]
    · push_neg at hq
      have henc : encStrBody (c :: t) ++ ('"' :: rest)
          = c :: (encStrBody t ++ ('"' :: rest)) := by
        simp [encStrBody, escChar, hq.1, hq.2]
      rw [henc, parseStrBody_cons, if_neg hq.2, if_neg hq.1]
      simp [ih]

/-! ## Round-trip of the full parser -/

theorem digitChar_props : ∀ d < 10, isDigitC (digitChar d) = true ∧
    digitChar d ≠ 'n' ∧ digitChar d ≠ 't' ∧ digitChar d ≠ 'f' ∧
    digitChar d ≠ '"' ∧ digitChar d ≠ '\x7b' ∧ digitChar d ≠ '-' := by decide

theorem parseVal_succ_cons (fuel : Nat) (c : Char) (r : List Char) :
    parseVal (fuel + 1) (c :: r) =
      (if c = 'n' then parseAfterN r
      else if c = 't' then parseAfterT r
      else if c = 'f' then parseAfterF r
      else if c = '"' then parseStrVal r
      else if c = '\x7b' then parseObjBody fuel r
      else if c = '-' then parseNumVal true r
      else if isDigitC c then parseNumVal false (c :: r)
      else none) := by
  rw [parseVal]

theorem jsize_pos (v : JVal) : 1 ≤ jsize v := by
  cases v <;> simp [jsize]

theorem encodeMembersTail_head (k : List Char) (v : JVal) (t : JMembers) :
    ∃ tl, encodeMembersTail (.mcons k v t) = '"' :: tl := by
  cases t <;> simp [encodeMembersTail, encStr]

theorem parse_encode : ∀ fuel : Nat,
    (∀ v rest, validJ v = true → jsize v ≤ fuel → numStop rest = true →
      parseVal fuel (encodeJ v ++ rest) = some (v, rest)) ∧
    (∀ k v t rest, validM (.mcons k v t) = true → msize (.mcons k v t) ≤ fuel →
      parseMembers fuel (encodeMembersTail (.mcons k v t) ++ rest)
        = some (.mcons k v t, rest)) := by
  intro fuel
  induction fuel with
  | zero =>
    constructor
    · intro v rest _ hsz _
      exact absurd hsz (by have := jsize_pos v; omega)
    · intro k v t rest _ hsz
      simp only [msize] at hsz
      omega
  | succ fuel ih =>
    constructor
    · intro v rest hv hsz hstop
      cases v with
      | jnull =>
        have h : encodeJ .jnull ++ rest = 'n' :: 'u' :: 'l' :: 'l' :: rest := by
          simp [encodeJ]
        rw [h, parseVal_succ_cons]
        simp [parseAfterN]
      | jbool b =>
        cases b with
        | true =>
          have h : encodeJ (.jbool true) ++ rest = 't' :: 'r' :: 'u' :: 'e' :: rest := by
            simp [encodeJ]
          rw [h, parseVal_succ_cons]
          simp [parseAfterT]
        | false =>
          have h : encodeJ (.jbool false) ++ rest
              = 'f' :: 'a' :: 'l' :: 's' :: 'e' :: rest := by
            simp [encodeJ]
          rw [h, parseVal_succ_cons]
          simp [parseAfterF]
      | jnum neg ip fr =>
        have hfr : ∀ d ∈ fr, d < 10 := by
          simpa [validJ] using hv
        cases neg with
        | true =>
          have h : encodeJ (.jnum true ip fr) ++ rest
              = '-' :: (encNat ip ++ (fracPart fr ++ rest)) := by
            simp [encodeJ]
          rw [h, parseVal_succ_cons]
          simp [parseNumVal, parseNumBody_enc ip fr rest hfr hstop]
        | false =>
          obtain ⟨d, ds, hds⟩ : ∃ d ds, digitsOfNat ip = d :: ds := by
            cases h : digitsOfNat ip with
            | nil => exact absurd h (digitsOfNat_ne_nil ip)
            | cons d ds => exact ⟨d, ds, rfl⟩
          have hd10 : d < 10 := digitsOfNat_lt ip d (by rw [hds]; simp)
          have hp := digitChar_props d hd10
          have h : encodeJ (.jnum false ip fr) ++ rest
              = digitChar d :: (ds.map digitChar ++ (fracPart fr ++ rest)) := by
            simp [encodeJ, encNat, hds]
          rw [h, parseVal_succ_cons]
          rw [if_neg hp.2.1, if_neg hp.2.2.1, if_neg hp.2.2.2.1, if_neg hp.2.2.2.2.1,
            if_neg hp.2.2.2.2.2.1, if_neg hp.2.2.2.2.2.2, if_pos hp.1]
          have hb : digitChar d :: (ds.map digitChar ++ (fracPart fr ++ rest))
              = encNat ip ++ (fracPart fr ++ rest) := by
            simp [encNat, hds]
          rw [hb]
          simp [parseNumVal, parseNumBody_enc ip fr rest hfr hstop]
      | jstr s =>
        have h : encodeJ (.jstr s) ++ rest = '"' :: (encStrBody s ++ ('"' :: rest)) := by
          simp [encodeJ, encStr]
        rw [h, parseVal_succ_cons]
        simp [parseStrVal, parseStrBody_enc]
      | jobj ms =>
        cases ms with
        | mnil =>
          have h : encodeJ (.jobj .mnil) ++ rest = '\x7b' :: '\x7d' :: rest := by
            simp [encodeJ, encodeMembersTail]
          rw [h, parseVal_succ_cons]
          simp [parseObjBody]
        | mcons k v t =>
          obtain ⟨tl, htl⟩ := encodeMembersTail_head k v t
          have h : encodeJ (.jobj (.mcons k v t)) ++ rest
              = '\x7b' :: (encodeMembersTail (.mcons k v t) ++ rest) := by
            simp [encodeJ]
          rw [h, parseVal_succ_cons]
          simp only [if_neg (by decide : ¬('\x7b' : Char) = 'n'),
            if_neg (by decide : ¬('\x7b' : Char) = 't'),
            if_neg (by decide : ¬('\x7b' : Char) = 'f'),
            if_neg (by decide : ¬('\x7b' : Char) = '"'), if_pos rfl]
          have hobj : parseObjBody fuel (encodeMembersTail (.mcons k v t) ++ rest)
              = match parseMembers fuel (encodeMembersTail (.mcons k v t) ++ rest) with
                | some (ms2, r2) => some (.jobj ms2, r2)
                | none => none := by
            rw [htl]
            simp [parseObjBody]
          rw [hobj, ih.2 k v t rest (by simpa [validJ] using hv)
            (by simp [jsize, msize] at hsz ⊢; omega)]
          simp
    · intro k v t rest hv hsz
      have hvparts : validJ v = true ∧ validM t = true := by
        have := hv
        simp [validM, Bool.and_eq_true] at this
        exact ⟨this.1.2, this.2⟩
      cases t with
      | mnil =>
        have h : encodeMembersTail (.mcons k v .mnil) ++ rest
            = '"' :: (encStrBody k ++ ('"' :: (':' :: (encodeJ v ++ ('\x7d' :: rest))))) := by
          simp [encodeMembersTail, encStr]
        rw [h, parseMembers]
        simp only [if_pos rfl, parseStrBody_enc]
        simp only [afterKey, afterColon,
          ih.1 v ('\x7d' :: rest) hvparts.1
            (by simp [msize] at hsz; omega) rfl,
          afterValue]
        simp
      | mcons k2 v2 t2 =>
        have h : encodeMembersTail (.mcons k v (.mcons k2 v2 t2)) ++ rest
            = '"' :: (encStrBody k ++ ('"' :: (':' :: (encodeJ v
                ++ (',' :: (encodeMembersTail (.mcons k2 v2 t2) ++ rest)))))) := by
          simp [encodeMembersTail, encStr]
        rw [h, parseMembers]
        simp only [if_pos rfl, parseStrBody_enc]
        simp only [afterKey, afterColon,
          ih.1 v (',' :: (encodeMembersTail (.mcons k2 v2 t2) ++ rest)) hvparts.1
            (by simp [msize] at hsz; omega) rfl,
          afterValue]
        rw [ih.2 k2 v2 t2 rest hvparts.2
          (by have := jsize_pos v; simp [msize] at hsz ⊢; omega)]
        simp

theorem size_le_encLen : ∀ n : Nat,
    (∀ v : JVal, jsize v ≤ n → jsize v ≤ (encodeJ v).length) ∧
    (∀ ms : JMembers, msize ms ≤ n → msize ms + 1 ≤ (encodeMembersTail ms).length) := by
  intro n
  induction n with
  | zero =>
    constructor
    · intro v hsz
      exact absurd hsz (by have := jsize_pos v; omega)
    · intro ms hsz
      cases ms with
      | mnil => simp [msize, encodeMembersTail]
      | mcons k v t =>
        have := jsize_pos v
        simp only [msize] at hsz
        omega
  | succ n ih =>
    constructor
    · intro v hsz
      cases v with
      | jnull => simp [jsize, encodeJ]
      | jbool b => cases b <;> simp [jsize, encodeJ]
      | jnum neg ip fr =>
        have h1 : 1 ≤ (encNat ip).length := by
          simp only [encNat, List.length_map]
          cases h : digitsOfNat ip with
          | nil => exact absurd h (digitsOfNat_ne_nil ip)
          | cons d ds => simp
        cases neg <;> simp [jsize, encodeJ] <;> omega
      | jstr s => simp [jsize, encodeJ, encStr]
      | jobj ms =>
        have hm : msize ms ≤ n := by
          simp only [jsize] at hsz
          omega
        have := ih.2 ms hm
        simp only [jsize, encodeJ, List.length_cons]
        omega
    · intro ms hsz
      cases ms with
      | mnil => simp [msize, encodeMembersTail]
      | mcons k v t =>
        have hv : jsize v ≤ n := by
          simp only [msize] at hsz
          have := jsize_pos v
          omega
        have h1 := ih.1 v hv
        cases t with
        | mnil =>
          simp only [msize, encodeMembersTail, encStr] at *
          simp only [List.length_append, List.length_cons, List.length_append,
            List.length_cons, List.length_nil]
          simp [msize] at hsz ⊢
          omega
        | mcons k2 v2 t2 =>
          have ht : msize (.mcons k2 v2 t2) ≤ n := by
            simp only [msize] at hsz ⊢
            have := jsize_pos v
            omega
          have h2 := ih.2 (.mcons k2 v2 t2) ht
          simp only [msize, encodeMembersTail, encStr] at *
          simp only [List.length_append, List.length_cons]
          omega

/-- `JSON.parse(JSON.stringify(v))` returns exactly `v` for every
well-formed JSON value: the encoder and the parser of the wire protocol are
mutually inverse. -/
theorem decode_encode (v : JVal) (hv : validJ v = true) :
    decodeJson (encodeJ v) = some v := by
  have hlen : jsize v ≤ (encodeJ v).length := (size_le_encLen (jsize v)).1 v le_rfl
  have h := (parse_encode ((encodeJ v).length + 1)).1 v [] hv (by omega) rfl
  rw [List.append_nil] at h
  rw [decodeJson, h]

/-! ## Pending-map lemmas -/

theorem mget_mem (m : List (String × Nat)) (c : String) (id : Nat)
    (h : mget m c = some id) : (c, id) ∈ m := by
  induction m with
  | nil => simp [mget] at h
  | cons p t ih =>
    obtain ⟨k, v⟩ := p
    rw [mget] at h
    by_cases hk : k = c
    · simp [hk] at h
      simp [hk, h]
    · simp [hk] at h
      simp [ih h]

theorem mget_filter_ne (t : List (String × Nat)) (c c2 : String) (h : c2 ≠ c) :
    mget (t.filter (fun p => p.1 != c2)) c = mget t c := by
  induction t with
  | nil => rfl
  | cons p tl ih =>
    obtain ⟨k, v⟩ := p
    by_cases hk : k = c2
    · have hf : ((k, v) :: tl).filter (fun p => p.1 != c2)
          = tl.filter (fun p => p.1 != c2) := by
        simp [List.filter_cons, hk]
      rw [hf, ih, mget, if_neg (fun hkc => h (hk.symm.trans hkc))]
    · have hf : ((k, v) :: tl).filter (fun p => p.1 != c2)
          = (k, v) :: tl.filter (fun p => p.1 != c2) := by
        simp [List.filter_cons, hk]
      rw [hf, mget, mget, ih]

theorem mget_filter_self (t : List (String × Nat)) (c : String) :
    mget (t.filter (fun p => p.1 != c)) c = none := by
  induction t with
  | nil => rfl
  | cons p tl ih =>
    obtain ⟨k, v⟩ := p
    by_cases hk : k = c
    · have hf : ((k, v) :: tl).filter (fun p => p.1 != c)
          = tl.filter (fun p => p.1 != c) := by
        simp [List.filter_cons, hk]
      rw [hf, ih]
    · have hf : ((k, v) :: tl).filter (fun p => p.1 != c)
          = (k, v) :: tl.filter (fun p => p.1 != c) := by
        simp [List.filter_cons, hk]
      rw [hf, mget, if_neg hk, ih]

theorem mget_mset_self (m : List (String × Nat)) (c : String) (id : Nat) :
    mget (mset m c id) c = some id := by
  simp [mset, mget]

theorem mget_mset_ne (m : List (String × Nat)) (c c2 : String) (id : Nat)
    (h : c2 ≠ c) : mget (mset m c2 id) c = mget m c := by
  rw [mset, mget, if_neg h, mget_filter_ne m c c2 h]

theorem mget_mdel_self (m : List (String × Nat)) (c : String) :
    mget (mdel m c) c = none := mget_filter_self m c

theorem mget_mdel_ne (m : List (String × Nat)) (c c2 : String)
    (h : c2 ≠ c) : mget (mdel m c2) c = mget m c := mget_filter_ne m c c2 h

theorem mem_mdel (m : List (String × Nat)) (c : String) (p : String × Nat)
    (h : p ∈ mdel m c) : p ∈ m ∧ p.1 ≠ c := by
  simp only [mdel, List.mem_filter, bne_iff_ne, ne_eq, decide_eq_true_eq] at h
  exact h

theorem mem_mset (m : List (String × Nat)) (c : String) (id : Nat)
    (p : String × Nat) (h : p ∈ mset m c id) : p = (c, id) ∨ p ∈ m := by
  simp only [mset, List.mem_cons] at h
  rcases h with h | h
  · exact Or.inl h
  · exact Or.inr (List.mem_filter.mp h).1

/-! ## Correlator step lemmas -/

theorem step_register_eq (s : RpcState) (c : String) (id : Nat) :
    step s (.register c id) = { s with pending := mset s.pending c id } := rfl

theorem step_reply_some (s : RpcState) (c : String) (env : JVal) (id : Nat)
    (h : mget s.pending c = some id) :
    step s (.reply c env)
      = { s with pending := mdel s.pending c, resolved := (id, env) :: s.resolved } := by
  simp [step, h]

theorem step_reply_none (s : RpcState) (c : String) (env : JVal)
    (h : mget s.pending c = none) : step s (.reply c env) = s := by
  simp [step, h]

theorem step_timeout_some (s : RpcState) (c : String) (selfId id : Nat)
    (h : mget s.pending c = some id) :
    step s (.timeout c selfId)
      = { s with pending := mdel s.pending c,
                 timedOut := (selfId, "RPC timeout") :: s.timedOut } := by
  simp [step, h]

theorem step_timeout_none (s : RpcState) (c : String) (selfId : Nat)
    (h : mget s.pending c = none) : step s (.timeout c selfId) = s := by
  simp [step, h]

theorem outcomes_cons_resolved (s : RpcState) (m : List (String × Nat))
    (id2 : Nat) (env : JVal) (id : Nat) :
    outcomes { s with pending := m, resolved := (id2, env) :: s.resolved } id
      = outcomes s id + (if id2 = id then 1 else 0) := by
  simp only [outcomes, List.countP_cons]
  by_cases h : id2 = id <;> simp [h] <;> omega

theorem outcomes_cons_timedOut (s : RpcState) (m : List (String × Nat))
    (id2 : Nat) (msg : String) (id : Nat) :
    outcomes { s with pending := m, timedOut := (id2, msg) :: s.timedOut } id
      = outcomes s id + (if id2 = id then 1 else 0) := by
  simp only [outcomes, List.countP_cons]
  by_cases h : id2 = id <;> simp [h] <;> omega

theorem outcomes_pending_irrel (s : RpcState) (m : List (String × Nat)) (id : Nat) :
    outcomes { s with pending := m } id = outcomes s id := rfl

/-! ## Waiter invariant preservation -/

theorem live_step_nontarget (s : RpcState) (c : String) (id : Nat) (e : RpcEv)
    (hl : WaiterLive s c id) (hf : freshEv c id e) (ht : targets c e = false) :
    WaiterLive (step s e) c id := by
  obtain ⟨hget, honly, hout⟩ := hl
  cases e with
  | register c2 id2 =>
    obtain ⟨hc2, hid2⟩ := hf
    refine ⟨?_, ?_, ?_⟩
    · rw [step_register_eq]
      simpa using (mget_mset_ne s.pending c c2 id2 hc2).trans hget
    · intro k v hmem hv
      rcases mem_mset s.pending c2 id2 (k, v) (by simpa [step_register_eq] using hmem)
        with h | h
      · injection h with h1 h2
        subst h2
        exact absurd hv hid2
      · exact honly k v h hv
    · simpa [step_register_eq, outcomes_pending_irrel] using hout
  | reply c2 env =>
    have hc2 : c2 ≠ c := by simpa [targets] using ht
    cases hm : mget s.pending c2 with
    | none => simpa [step_reply_none s c2 env hm] using ⟨hget, honly, hout⟩
    | some id2 =>
      have hmem := mget_mem s.pending c2 id2 hm
      have hid2 : id2 ≠ id := fun h => hc2 (honly c2 id2 hmem h)
      rw [step_reply_some s c2 env id2 hm]
      refine ⟨?_, ?_, ?_⟩
      · simpa using (mget_mdel_ne s.pending c c2 hc2).trans hget
      · intro k v hmem2 hv
        exact honly k v (mem_mdel s.pending c2 (k, v) (by simpa using hmem2)).1 hv
      · rw [outcomes_cons_resolved, if_neg hid2, hout]
  | timeout c2 id2 =>
    have hc2 : c2 ≠ c := by simpa [targets] using ht
    have hid2 : id2 ≠ id := fun h => hc2 (hf.mpr h)
    cases hm : mget s.pending c2 with
    | none => simpa [step_timeout_none s c2 id2 hm] using ⟨hget, honly, hout⟩
    | some id3 =>
      rw [step_timeout_some s c2 id2 id3 hm]
      refine ⟨?_, ?_, ?_⟩
      · simpa using (mget_mdel_ne s.pending c c2 hc2).trans hget
      · intro k v hmem2 hv
        exact honly k v (mem_mdel s.pending c2 (k, v) (by simpa using hmem2)).1 hv
      · rw [outcomes_cons_timedOut, if_neg hid2, hout]

theorem live_step_target (s : RpcState) (c : String) (id : Nat) (e : RpcEv)
    (hl : WaiterLive s c id) (hf : freshEv c id e) (ht : targets c e = true) :
    WaiterDone (step s e) c id := by
  obtain ⟨hget, honly, hout⟩ := hl
  cases e with
  | register c2 id2 => simp [targets] at ht
  | reply c2 env =>
    have hc2 : c2 = c := by simpa [targets] using ht
    subst hc2
    rw [step_reply_some s c2 env id hget]
    refine ⟨?_, ?_⟩
    · intro k v hmem
      have hd := mem_mdel s.pending c2 (k, v) (by simpa using hmem)
      exact ⟨fun hv => hd.2 (honly k v hd.1 hv), hd.2⟩
    · rw [outcomes_cons_resolved, if_pos rfl, hout]
  | timeout c2 id2 =>
    have hc2 : c2 = c := by simpa [targets] using ht
    subst hc2
    have hid2 : id2 = id := hf.mp rfl
    rw [step_timeout_some s c2 id2 id hget]
    refine ⟨?_, ?_⟩
    · intro k v hmem
      have hd := mem_mdel s.pending c2 (k, v) (by simpa using hmem)
      exact ⟨fun hv => hd.2 (honly k v hd.1 hv), hd.2⟩
    · rw [outcomes_cons_timedOut, if_pos hid2, hout]

theorem done_step (s : RpcState) (c : String) (id : Nat) (e : RpcEv)
    (hd : WaiterDone s c id) (hf : freshEv c id e) :
    WaiterDone (step s e) c id := by
  obtain ⟨hnone, hout⟩ := hd
  cases e with
  | register c2 id2 =>
    obtain ⟨hc2, hid2⟩ := hf
    refine ⟨?_, ?_⟩
    · intro k v hmem
      rcases mem_mset s.pending c2 id2 (k, v) (by simpa [step_register_eq] using hmem)
        with h | h
      · injection h with h1 h2
        subst h1; subst h2
        exact ⟨hid2, hc2⟩
      · exact hnone k v h
    · simpa [step_register_eq, outcomes_pending_irrel] using hout
  | reply c2 env =>
    cases hm : mget s.pending c2 with
    | none => simpa [step_reply_none s c2 env hm] using ⟨hnone, hout⟩
    | some id2 =>
      have hid2 : id2 ≠ id := (hnone c2 id2 (mget_mem s.pending c2 id2 hm)).1
      rw [step_reply_some s c2 env id2 hm]
      refine ⟨?_, ?_⟩
      · intro k v hmem2
        exact hnone k v (mem_mdel s.pending c2 (k, v) (by simpa using hmem2)).1
      · rw [outcomes_cons_resolved, if_neg hid2, hout]
  | timeout c2 id2 =>
    cases hm : mget s.pending c2 with
    | none => simpa [step_timeout_none s c2 id2 hm] using ⟨hnone, hout⟩
    | some id3 =>
      have hc2 : c2 ≠ c := (hnone c2 id3 (mget_mem s.pending c2 id3 hm)).2
      have hid2 : id2 ≠ id := fun h => hc2 (hf.mpr h)
      rw [step_timeout_some s c2 id2 id3 hm]
      refine ⟨?_, ?_⟩
      · intro k v hmem2
        exact hnone k v (mem_mdel s.pending c2 (k, v) (by simpa using hmem2)).1
      · rw [outcomes_cons_timedOut, if_neg hid2, hout]

theorem done_run (s : RpcState) (c : String) (id : Nat) (evs : List RpcEv)
    (hd : WaiterDone s c id) (hf : freshTrace c id evs) :
    WaiterDone (runEvs s evs) c id := by
  induction evs generalizing s with
  | nil => simpa [runEvs] using hd
  | cons e t ih =>
    have h1 := done_step s c id e hd (hf e (by simp))
    exact ih (step s e) h1 (fun e2 he2 => hf e2 (by simp [he2]))

/-! ## Resolution provenance (for the correlation claim) -/

theorem onlyUnder_step (s : RpcState) (c : String) (id : Nat) (e : RpcEv)
    (ho : onlyUnder s.pending c id)
    (hreg : ∀ c2 id2, e = .register c2 id2 → id2 ≠ id) :
    onlyUnder (step s e).pending c id := by
  cases e with
  | register c2 id2 =>
    intro k v hmem hv
    rcases mem_mset s.pending c2 id2 (k, v) (by simpa [step_register_eq] using hmem)
      with h | h
    · injection h with h1 h2
      subst h2
      exact absurd hv (hreg c2 v rfl)
    · exact ho k v h hv
  | reply c2 env =>
    cases hm : mget s.pending c2 with
    | none => simpa [step_reply_none s c2 env hm] using ho
    | some id2 =>
      rw [step_reply_some s c2 env id2 hm]
      intro k v hmem hv
      exact ho k v (mem_mdel s.pending c2 (k, v) (by simpa using hmem)).1 hv
  | timeout c2 id2 =>
    cases hm : mget s.pending c2 with
    | none => simpa [step_timeout_none s c2 id2 hm] using ho
    | some id3 =>
      rw [step_timeout_some s c2 id2 id3 hm]
      intro k v hmem hv
      exact ho k v (mem_mdel s.pending c2 (k, v) (by simpa using hmem)).1 hv

theorem resolved_provenance (s : RpcState) (c : String) (id : Nat) (evs : List RpcEv)
    (ho : onlyUnder s.pending c id)
    (hreg : ∀ c2 id2, RpcEv.register c2 id2 ∈ evs → id2 ≠ id) :
    ∀ env, (id, env) ∈ (runEvs s evs).resolved →
      (id, env) ∈ s.resolved ∨ RpcEv.reply c env ∈ evs := by
  induction evs generalizing s with
  | nil =>
    intro env h
    exact Or.inl (by simpa [runEvs] using h)
  | cons e t ih =>
    intro env hmem
    have ho2 : onlyUnder (step s e).pending c id :=
      onlyUnder_step s c id e ho (fun c2 id2 he => hreg c2 id2 (by simp [he]))
    have hmem2 : (id, env) ∈ (runEvs (step s e) t).resolved := by
      simpa [runEvs] using hmem
    rcases ih (step s e) ho2 (fun c2 id2 h2 => hreg c2 id2 (by simp [h2])) env hmem2
      with h | h
    · cases e with
      | register c2 id2 =>
        exact Or.inl (by simpa [step_register_eq] using h)
      | reply c2 env2 =>
        cases hm : mget s.pending c2 with
        | none => exact Or.inl (by simpa [step_reply_none s c2 env2 hm] using h)
        | some id2 =>
          rw [step_reply_some s c2 env2 id2 hm] at h
          simp only [List.mem_cons] at h
          rcases h with h | h
          · injection h with h1 h2
            subst h2
            have hc2 : c2 = c := ho c2 id (mget_mem s.pending c2 id (h1 ▸ hm)) rfl
            subst hc2
            exact Or.inr (by simp)
          · exact Or.inl h
      | timeout c2 id2 =>
        cases hm : mget s.pending c2 with
        | none => exact Or.inl (by simpa [step_timeout_none s c2 id2 hm] using h)
        | some id3 =>
          rw [step_timeout_some s c2 id2 id3 hm] at h
          exact Or.inl h
    · exact Or.inr (by simp [h])

/-! ## Key uniqueness, timeout removal, rejection provenance -/

theorem keysNodup_mset (m : List (String × Nat)) (c : String) (id : Nat)
    (h : keysNodup m) : keysNodup (mset m c id) := by
  simp only [keysNodup, mset, List.map_cons, List.nodup_cons]
  refine ⟨?_, ?_⟩
  · intro hc
    obtain ⟨p, hp, hp1⟩ := List.mem_map.mp hc
    have := (List.mem_filter.mp hp).2
    simp only [bne_iff_ne, ne_eq, decide_eq_true_eq] at this
    exact this hp1
  · exact ((m.filter_sublist).map Prod.fst).nodup h

theorem keysNodup_mdel (m : List (String × Nat)) (c : String)
    (h : keysNodup m) : keysNodup (mdel m c) :=
  ((m.filter_sublist).map Prod.fst).nodup h

theorem keysNodup_step (s : RpcState) (e : RpcEv)
    (h : keysNodup s.pending) : keysNodup (step s e).pending := by
  cases e with
  | register c id => simpa [step_register_eq] using keysNodup_mset s.pending c id h
  | reply c env =>
    cases hm : mget s.pending c with
    | none => simpa [step_reply_none s c env hm] using h
    | some id =>
      rw [step_reply_some s c env id hm]
      exact keysNodup_mdel s.pending c h
  | timeout c id =>
    cases hm : mget s.pending c with
    | none => simpa [step_timeout_none s c id hm] using h
    | some id2 =>
      rw [step_timeout_some s c id id2 hm]
      exact keysNodup_mdel s.pending c h

theorem keysNodup_run (s : RpcState) (evs : List RpcEv)
    (h : keysNodup s.pending) : keysNodup (runEvs s evs).pending := by
  induction evs generalizing s with
  | nil => simpa [runEvs] using h
  | cons e t ih => simpa [runEvs] using ih (step s e) (keysNodup_step s e h)

theorem filter_eq_self_of_mget_none (m : List (String × Nat)) (c : String)
    (h : mget m c = none) : m.filter (fun p => p.1 != c) = m := by
  induction m with
  | nil => rfl
  | cons p t ih =>
    obtain ⟨k, v⟩ := p
    rw [mget] at h
    by_cases hk : k = c
    · simp [hk] at h
    · simp only [hk, if_neg hk] at h
      simp [List.filter_cons, hk, ih h]

theorem timedOut_mono (s : RpcState) (evs : List RpcEv) (x : Nat × String)
    (h : x ∈ s.timedOut) : x ∈ (runEvs s evs).timedOut := by
  induction evs generalizing s with
  | nil => simpa [runEvs] using h
  | cons e t ih =>
    have h2 : x ∈ (step s e).timedOut := by
      cases e with
      | register c id => simpa [step_register_eq] using h
      | reply c env =>
        cases hm : mget s.pending c with
        | none => simpa [step_reply_none s c env hm] using h
        | some id =>
          rw [step_reply_some s c env id hm]
          exact h
      | timeout c id =>
        cases hm : mget s.pending c with
        | none => simpa [step_timeout_none s c id hm] using h
        | some id2 =>
          rw [step_timeout_some s c id id2 hm]
          exact List.mem_cons_of_mem _ h
    simpa [runEvs, List.foldl_cons] using ih (step s e) h2

theorem timeout_cycles_clean (l : List (String × Nat)) (s : RpcState)
    (hfresh : ∀ p ∈ l, mget s.pending p.1 = none) :
    (runEvs s (timeoutCycles l)).pending = s.pending ∧
    ∀ p ∈ l, (p.2, "RPC timeout") ∈ (runEvs s (timeoutCycles l)).timedOut := by
  induction l generalizing s with
  | nil => simp [timeoutCycles, runEvs]
  | cons p t ih =>
    obtain ⟨c, id⟩ := p
    have hc : mget s.pending c = none := hfresh (c, id) (by simp)
    have hset : mset s.pending c id = (c, id) :: s.pending := by
      rw [mset, filter_eq_self_of_mget_none s.pending c hc]
    have hstep1 : step s (.register c id) = { s with pending := (c, id) :: s.pending } := by
      rw [step_register_eq, hset]
    have hget2 : mget ((c, id) :: s.pending) c = some id := by
      rw [mget, if_pos rfl]
    have hdel : mdel ((c, id) :: s.pending) c = s.pending := by
      simp [mdel, List.filter_cons, filter_eq_self_of_mget_none s.pending c hc]
    have hstep2 : step { s with pending := (c, id) :: s.pending } (.timeout c id)
        = { s with pending := s.pending,
                   timedOut := (id, "RPC timeout") :: s.timedOut } := by
      rw [step_timeout_some _ c id id (by simpa using hget2)]
      simp [hdel]
    have hrun : runEvs s (timeoutCycles ((c, id) :: t))
        = runEvs { s with pending := s.pending,
                          timedOut := (id, "RPC timeout") :: s.timedOut }
            (timeoutCycles t) := by
      simp only [timeoutCycles, runEvs, List.foldl_cons]
      rw [show step s (RpcEv.register c id) = { s with pending := (c, id) :: s.pending }
        from hstep1, hstep2]
    obtain ⟨ih1, ih2⟩ := ih { s with pending := s.pending,
                                     timedOut := (id, "RPC timeout") :: s.timedOut }
      (fun q hq => hfresh q (by simp [hq]))
    constructor
    · rw [hrun]
      exact ih1
    · intro q hq
      rcases List.mem_cons.mp hq with h | h
      · subst h
        rw [hrun]
        exact timedOut_mono _ _ _ (by simp)
      · rw [hrun]
        exact ih2 q h

theorem timedOut_provenance (s : RpcState) (evs : List RpcEv) (x : Nat × String)
    (h : x ∈ (runEvs s evs).timedOut) :
    x ∈ s.timedOut ∨ ∃ c id2, RpcEv.timeout c id2 ∈ evs ∧ x = (id2, "RPC timeout") := by
  induction evs generalizing s with
  | nil => exact Or.inl (by simpa [runEvs] using h)
  | cons e t ih =>
    have h2 : x ∈ (runEvs (step s e) t).timedOut := by simpa [runEvs] using h
    rcases ih (step s e) h2 with h3 | h3
    · cases e with
      | register c id => exact Or.inl (by simpa [step_register_eq] using h3)
      | reply c env =>
        cases hm : mget s.pending c with
        | none => exact Or.inl (by simpa [step_reply_none s c env hm] using h3)
        | some id =>
          rw [step_reply_some s c env id hm] at h3
          exact Or.inl h3
      | timeout c id =>
        cases hm : mget s.pending c with
        | none => exact Or.inl (by simpa [step_timeout_none s c id hm] using h3)
        | some id2 =>
          rw [step_timeout_some s c id id2 hm] at h3
          rcases List.mem_cons.mp h3 with h4 | h4
          · exact Or.inr ⟨c, id, by simp, h4⟩
          · exact Or.inl h4
    · obtain ⟨c, id2, hmem, hx⟩ := h3
      exact Or.inr ⟨c, id2, by simp [hmem], hx⟩

/-! ## Connection retry loop lemmas -/

theorem connectLoopAux_spec (ok : Nat → Bool) : ∀ fuel retries,
    (∃ n, connectLoopAux ok fuel retries = .connected n ∧ retries < n ∧
      n ≤ retries + fuel ∧ ok (n - 1) = true) ∨
    (connectLoopAux ok fuel retries = .fatal (retries + fuel) ∧
      ∀ i, retries ≤ i → i < retries + fuel → ok i = false) := by
  intro fuel
  induction fuel with
  | zero =>
    intro retries
    exact Or.inr ⟨rfl, fun i h1 h2 => absurd h2 (by omega)⟩
  | succ fuel ih =>
    intro retries
    by_cases hok : ok retries = true
    · exact Or.inl ⟨retries + 1, by simp [connectLoopAux, hok], by omega, by omega,
        by simpa using hok⟩
    · have hstep : connectLoopAux ok (fuel + 1) retries
          = connectLoopAux ok fuel (retries + 1) := by
        simp [connectLoopAux, hok]
      rcases ih (retries + 1) with ⟨n, h1, h2, h3, h4⟩ | ⟨h1, h2⟩
      · exact Or.inl ⟨n, hstep ▸ h1, by omega, by omega, h4⟩
      · refine Or.inr ⟨by rw [hstep, h1]; congr 1; omega, ?_⟩
        intro i hi1 hi2
        by_cases hi : i = retries
        · subst hi
          simpa using hok
        · exact h2 i (by omega) (by omega)

/-! # Claim theorems -/

/-- C1: for every invocation of `sendRpc`, exactly one of resolve (via a
reply envelope consumed by the correlator) and timeout-reject fires — never
both and never neither — assuming some event for the call's correlation
token (its reply or its timer) eventually occurs, and given that correlation
ids and call identities are fresh, as `generateUuid` guarantees. -/
theorem rpc_exactly_one_outcome (s : RpcState) (c : String) (id : Nat)
    (evs : List RpcEv)
    (hlive : WaiterLive s c id)
    (hfresh : freshTrace c id evs)
    (hcons : ∃ e ∈ evs, targets c e = true) :
    outcomes (runEvs s evs) id = 1 := by
  induction evs generalizing s with
  | nil =>
    obtain ⟨e, he, _⟩ := hcons
    simp at he
  | cons e t ih =>
    have hfe := hfresh e (by simp)
    have hft : freshTrace c id t := fun e2 h2 => hfresh e2 (by simp [h2])
    cases hte : targets c e with
    | true =>
      have hdone := live_step_target s c id e hlive hfe hte
      simpa [runEvs] using (done_run (step s e) c id t hdone hft).2
    | false =>
      have hlive2 := live_step_nontarget s c id e hlive hfe hte
      have hcons2 : ∃ e2 ∈ t, targets c e2 = true := by
        obtain ⟨e2, he2, ht2⟩ := hcons
        rcases List.mem_cons.mp he2 with h | h
        · subst h
          rw [hte] at ht2
          cases ht2
        · exact ⟨e2, h, ht2⟩
      simpa [runEvs] using ih (step s e) hlive2 hft hcons2

/-- Witness for C1: one registered call, its reply arrives, exactly one
settlement results. -/
theorem rpc_exactly_one_outcome_witness :
    WaiterLive ⟨[("tok", 7)], [], []⟩ "tok" 7 ∧
    outcomes (runEvs ⟨[("tok", 7)], [], []⟩ [.reply "tok" .jnull]) 7 = 1 := by
  refine ⟨?_, ?_⟩
  · refine ⟨rfl, ?_, rfl⟩
    intro k v hmem hv
    simp at hmem
    exact hmem.1
  · refine rpc_exactly_one_outcome _ "tok" 7 _
      ⟨rfl, ?_, rfl⟩ ?_ ⟨.reply "tok" .jnull, by simp, by decide⟩
    · intro k v hmem hv
      simp at hmem
      exact hmem.1
    · intro e he
      simp at he
      subst he
      simp [freshEv]

/-- C2: a call resolves only with a reply envelope that was delivered under
the call's own correlation token: whatever value call `id` (owning token `c`)
is resolved with during a trace was carried by a `reply c _` event, for any
interleaving and ordering of concurrently delivered replies. -/
theorem rpc_resolves_own_reply (s : RpcState) (c : String) (id : Nat)
    (evs : List RpcEv)
    (ho : onlyUnder s.pending c id)
    (hreg : ∀ c2 id2, RpcEv.register c2 id2 ∈ evs → id2 ≠ id)
    (hstart : ∀ env, (id, env) ∉ s.resolved) :
    ∀ env, (id, env) ∈ (runEvs s evs).resolved → RpcEv.reply c env ∈ evs := by
  intro env hmem
  rcases resolved_provenance s c id evs ho hreg env hmem with h | h
  · exact absurd h (hstart env)
  · exact h

/-- Witness for C2: two concurrent calls whose replies arrive in reverse
order each resolve with their own payload, never swapped. -/
theorem rpc_resolves_own_reply_witness :
    (runEvs ⟨[("t1", 1), ("t2", 2)], [], []⟩
        [.reply "t2" (.jstr "B".toList), .reply "t1" (.jstr "A".toList)]).resolved
      = [(1, .jstr "A".toList), (2, .jstr "B".toList)] ∧
    RpcEv.reply "t1" (.jstr "A".toList)
      ∈ [RpcEv.reply "t2" (.jstr "B".toList), RpcEv.reply "t1" (.jstr "A".toList)] := by
  refine ⟨by decide, ?_⟩
  refine rpc_resolves_own_reply ⟨[("t1", 1), ("t2", 2)], [], []⟩ "t1" 1 _ ?_ ?_ ?_
    (.jstr "A".toList) (by decide)
  · intro k v hmem hv
    simp at hmem
    rcases hmem with h | h
    · exact h.1
    · rw [hv] at h
      exact absurd h.2 (by decide)
  · intro c2 id2 hmem
    simp at hmem
  · intro env h
    simp at h

/-- C3: the pending map holds at most one entry per correlation token
(uniqueness of keys is preserved by every trace), and a reply whose token is
not pending — unknown, already resolved, or already timed out — is silently
dropped: the consume callback neither throws (even on a malformed body) nor
changes any state, so no other pending call and no subsequent call is
affected. -/
theorem pending_unique_and_unknown_dropped :
    (∀ (s : RpcState) (evs : List RpcEv), keysNodup s.pending →
      keysNodup (runEvs s evs).pending) ∧
    (∀ (s : RpcState) (c : String) (env : JVal), mget s.pending c = none →
      step s (.reply c env) = s) ∧
    (∀ (s : RpcState) (c : String) (content : List Char), mget s.pending c = none →
      consumeRaw s c content = .ok s) := by
  refine ⟨keysNodup_run, step_reply_none, ?_⟩
  intro s c content h
  simp [consumeRaw, h]

/-- Witness for C3: a state with one pending token keeps unique keys over a
trace, and a reply for an unknown token (with an unparseable body) is a
no-op. -/
theorem pending_unique_and_unknown_dropped_witness :
    keysNodup (runEvs ⟨[("t1", 1)], [], []⟩ [.register "t2" 2]).pending ∧
    step ⟨[("t1", 1)], [], []⟩ (.reply "zzz" .jnull) = ⟨[("t1", 1)], [], []⟩ ∧
    consumeRaw ⟨[("t1", 1)], [], []⟩ "zzz" "garbage".toList = .ok ⟨[("t1", 1)], [], []⟩ := by
  refine ⟨pending_unique_and_unknown_dropped.1 _ _ (by unfold keysNodup; decide),
    pending_unique_and_unknown_dropped.2.1 _ _ _ (by decide),
    pending_unique_and_unknown_dropped.2.2 _ _ _ (by decide)⟩

/-- C4: when the 5000 ms timer of a call whose token is still pending fires,
the entry is removed from the pending map and the call is rejected with the
`RPC timeout` error; and after any number of register-then-timeout cycles
with fresh tokens the pending map is exactly what it was before — no entry
leaks — while every timed-out call has been rejected. -/
theorem timeout_rejects_and_no_leak :
    (∀ (s : RpcState) (c : String) (selfId id : Nat), mget s.pending c = some id →
      mget (step s (.timeout c selfId)).pending c = none ∧
      (selfId, "RPC timeout") ∈ (step s (.timeout c selfId)).timedOut) ∧
    (∀ (l : List (String × Nat)) (s : RpcState),
      (∀ p ∈ l, mget s.pending p.1 = none) →
      (runEvs s (timeoutCycles l)).pending = s.pending ∧
      ∀ p ∈ l, (p.2, "RPC timeout") ∈ (runEvs s (timeoutCycles l)).timedOut) := by
  refine ⟨?_, fun l s h => timeout_cycles_clean l s h⟩
  intro s c selfId id h
  rw [step_timeout_some s c selfId id h]
  exact ⟨mget_mdel_self s.pending c, by simp⟩

/-- Witness for C4: three timeout cycles leave the pending map empty and
reject all three calls. -/
theorem timeout_rejects_and_no_leak_witness :
    mget (step ⟨[("t", 9)], [], []⟩ (.timeout "t" 9)).pending "t" = none ∧
    (runEvs ⟨[], [], []⟩ (timeoutCycles [("a", 1), ("b", 2), ("c", 3)])).pending = [] ∧
    (3, "RPC timeout")
      ∈ (runEvs ⟨[], [], []⟩ (timeoutCycles [("a", 1), ("b", 2), ("c", 3)])).timedOut := by
  refine ⟨(timeout_rejects_and_no_leak.1 _ "t" 9 9 (by decide)).1, ?_, ?_⟩
  · exact (timeout_rejects_and_no_leak.2 [("a", 1), ("b", 2), ("c", 3)] _
      (by intro p hp; simp [mget])).1
  · exact (timeout_rejects_and_no_leak.2 [("a", 1), ("b", 2), ("c", 3)] _
      (by intro p hp; simp [mget])).2 ("c", 3) (by simp)

/-- C10: a reply envelope — including one with `status: 'error'` — resolves
the call's promise (only a resolve function is ever stored in the pending
map), leaving the set of rejections untouched; rejections arise exclusively
from the timeout path, always with the `RPC timeout` error. -/
theorem error_reply_resolves_not_rejects :
    (∀ (s : RpcState) (c : String) (env : JVal) (id : Nat),
      mget s.pending c = some id →
      (step s (.reply c env)).timedOut = s.timedOut ∧
      (id, env) ∈ (step s (.reply c env)).resolved) ∧
    (∀ (s : RpcState) (evs : List RpcEv) (x : Nat × String),
      x ∈ (runEvs s evs).timedOut →
      x ∈ s.timedOut ∨ ∃ c id2, RpcEv.timeout c id2 ∈ evs ∧ x = (id2, "RPC timeout")) := by
  refine ⟨?_, timedOut_provenance⟩
  intro s c env id h
  rw [step_reply_some s c env id h]
  exact ⟨rfl, by simp⟩

/-- Witness for C10: an error-status reply resolves the waiting call and
rejects nothing. -/
theorem error_reply_resolves_not_rejects_witness :
    (step ⟨[("t", 4)], [], []⟩ (.reply "t" itemErrEnv)).timedOut = [] ∧
    (4, itemErrEnv) ∈ (step ⟨[("t", 4)], [], []⟩ (.reply "t" itemErrEnv)).resolved ∧
    isSuccess itemErrEnv = false := by
  refine ⟨(error_reply_resolves_not_rejects.1 _ "t" itemErrEnv 4 (by decide)).1,
    (error_reply_resolves_not_rejects.1 _ "t" itemErrEnv 4 (by decide)).2, by decide⟩

/-- C5 (bug evidence): on a `status: 'error'` reply, the `POST /items`
handler still publishes an `item_added` fan-out event (with an undefined
item) and answers 201, while the update and delete handlers in the same file
publish nothing on an error reply — the "publish iff success" claim fails
exactly on the create route. -/
theorem create_item_broadcasts_on_error_reply :
    isSuccess itemErrEnv = false ∧
    handleCreateItem (.resolved itemErrEnv) = ⟨201, [⟨"item_added".toList, none⟩]⟩ ∧
    handleUpdateItem (.resolved itemErrEnv) = ⟨404, []⟩ ∧
    handleDeleteItem 3 (.resolved itemErrEnv) = ⟨404, []⟩ ∧
    handleUpdateItem (.resolved (replyEnvelope "success".toList .jnull))
      = ⟨200, [⟨"item_updated".toList, some .jnull⟩]⟩ := by
  decide

/-- C6 (bug evidence): the `POST /signup` handler answers 201 — a success
status — even when the user service reports `Username already exists` in a
`status: 'error'` envelope, while the login handler in the same file maps
the same kind of envelope to 401. -/
theorem signup_returns_201_on_error_reply :
    isSuccess userErrEnv = false ∧
    handleSignup (.resolved userErrEnv) = ⟨201, []⟩ ∧
    handleLogin (.resolved userErrEnv) = ⟨401, []⟩ ∧
    handleLogin (.resolved (replyEnvelope "success".toList .jnull)) = ⟨200, []⟩ ∧
    handleSignup .timeoutErr = ⟨504, []⟩ := by
  decide

/-- C7 counterexample: a message that fails to parse *does* throw into the
consume loop whenever its correlation token matches a pending waiter —
`JSON.parse` runs unguarded inside the consume callback — refuting the claim
that a malformed body is always dropped without throwing. -/
theorem malformed_pending_reply_throws :
    consumeRaw ⟨[("t", 0)], [], []⟩ "t" "oops".toList
      = .error "SyntaxError: Unexpected token in JSON" := by
  simp [consumeRaw, mget, decodeJson, parseVal, isDigitC]

/-- C7 (amended): a malformed message is dropped without throwing only when
its correlation token is not pending (the resolver lookup precedes the
parse); when the token is pending, the parse error propagates into the
consume loop before the resolve and the delete; resolver invocation itself
is total and never throws — a parseable body always yields a normal
resolution. -/
theorem consume_malformed_behavior (s : RpcState) (c : String) (content : List Char) :
    (mget s.pending c = none → consumeRaw s c content = .ok s) ∧
    (∀ id, mget s.pending c = some id → decodeJson content = none →
      consumeRaw s c content = .error "SyntaxError: Unexpected token in JSON") ∧
    (∀ id env, mget s.pending c = some id → decodeJson content = some env →
      consumeRaw s c content
        = .ok { s with pending := mdel s.pending c,
                       resolved := (id, env) :: s.resolved }) := by
  refine ⟨?_, ?_, ?_⟩
  · intro h
    simp [consumeRaw, h]
  · intro id h hdec
    simp [consumeRaw, h, hdec]
  · intro id env h hdec
    simp [consumeRaw, h, hdec]

/-- Witness for the amended C7: an unknown token is a no-op even with a
malformed body, and a pending token with a parseable body resolves. -/
theorem consume_malformed_behavior_witness :
    consumeRaw ⟨[], [], []⟩ "t" "x".toList = .ok ⟨[], [], []⟩ ∧
    consumeRaw ⟨[("t", 5)], [], []⟩ "t" "null".toList
      = .ok ⟨[], [(5, .jnull)], []⟩ := by
  refine ⟨(consume_malformed_behavior ⟨[], [], []⟩ "t" "x".toList).1 rfl, ?_⟩
  have hnull : decodeJson "null".toList = some .jnull := by
    have henc : "null".toList = encodeJ JVal.jnull := by decide
    rw [henc]
    exact decode_encode .jnull (by decide)
  have h := (consume_malformed_behavior ⟨[("t", 5)], [], []⟩ "t" "null".toList).2.2
    5 .jnull rfl hnull
  rw [h]
  rfl

/-- C8: the broker connection loop makes at most `maxRetries` attempts (with
the fixed 5000 ms backoff configured in `retryBackoffMs`) and always
terminates, either Connected after between 1 and `maxRetries` attempts with
the last attempt succeeding, or Fatal after exactly `maxRetries` failed
attempts; in the fatal case the gateway process exits without ever reaching
`server.listen`. -/
theorem connect_retry_bounded_terminates (ok : Nat → Bool) (maxRetries : Nat) :
    ((∃ n, connectLoop ok maxRetries = .connected n ∧ 1 ≤ n ∧ n ≤ maxRetries ∧
        ok (n - 1) = true) ∨
      (connectLoop ok maxRetries = .fatal maxRetries ∧ ∀ i < maxRetries, ok i = false)) ∧
    (connectLoop ok maxRetriesGateway = .fatal maxRetriesGateway →
      gatewayStart ok = .exited) ∧
    maxRetriesGateway = 5 ∧ retryBackoffMs = 5000 := by
  refine ⟨?_, ?_, rfl, rfl⟩
  · rcases connectLoopAux_spec ok maxRetries 0 with ⟨n, h1, h2, h3, h4⟩ | ⟨h1, h2⟩
    · exact Or.inl ⟨n, h1, by omega, by omega, h4⟩
    · exact Or.inr ⟨by simpa [connectLoop] using h1,
        fun i hi => h2 i (by omega) (by omega)⟩
  · intro h
    simp [gatewayStart, h]

/-- Witness for C8: with a broker that never accepts, the loop is Fatal
after 5 attempts and the gateway never listens. -/
theorem connect_retry_bounded_terminates_witness :
    connectLoop (fun _ => false) 5 = .fatal 5 ∧
    gatewayStart (fun _ => false) = .exited := by
  refine ⟨by decide, ?_⟩
  exact (connect_retry_bounded_terminates (fun _ => false) 5).2.1 (by decide)

/-- C9: serializing a Request Envelope `{ command, payload }` the way
`sendRpc` does, parsing it the way the worker's `handleRequest` does, and
likewise re-encoding and re-parsing the worker's Reply Envelope
`{ status, data }`, preserves the payload and data fields exactly, for every
well-formed JSON payload (string, number, boolean, null and nested-object
fields). -/
theorem request_reply_roundtrip (cmd : List Char) (payload : JVal)
    (status : List Char) (data : JVal)
    (hcmd : validJ (.jstr cmd) = true) (hpayload : validJ payload = true)
    (hstatus : validJ (.jstr status) = true) (hdata : validJ data = true) :
    ((decodeJson (encodeJ (requestEnvelope cmd payload))).bind
        (fun env => jget env "payload".toList) = some payload) ∧
    ((decodeJson (encodeJ (requestEnvelope cmd payload))).bind
        (fun env => jget env "command".toList) = some (.jstr cmd)) ∧
    ((decodeJson (encodeJ (replyEnvelope status data))).bind
        (fun env => jget env "data".toList) = some data) := by
  have hcmd2 : cmd.all (fun c => 32 ≤ c.toNat) = true := by simpa [validJ] using hcmd
  have hstatus2 : status.all (fun c => 32 ≤ c.toNat) = true := by
    simpa [validJ] using hstatus
  have hk1 : ("command".toList).all (fun c => 32 ≤ c.toNat) = true := by decide
  have hk2 : ("payload".toList).all (fun c => 32 ≤ c.toNat) = true := by decide
  have hk3 : ("status".toList).all (fun c => 32 ≤ c.toNat) = true := by decide
  have hk4 : ("data".toList).all (fun c => 32 ≤ c.toNat) = true := by decide
  have h1 : validJ (requestEnvelope cmd payload) = true := by
    simp [requestEnvelope, validJ, validM, hk1, hk2, hcmd2, hpayload]
  have h2 : validJ (replyEnvelope status data) = true := by
    simp [replyEnvelope, validJ, validM, hk3, hk4, hstatus2, hdata]
  refine ⟨?_, ?_, ?_⟩
  · rw [decode_encode _ h1]
    show jget (requestEnvelope cmd payload) ("payload".toList) = some payload
    simp [requestEnvelope, jget, mfind]
  · rw [decode_encode _ h1]
    show jget (requestEnvelope cmd payload) ("command".toList) = some (.jstr cmd)
    simp [requestEnvelope, jget, mfind]
  · rw [decode_encode _ h2]
    show jget (replyEnvelope status data) ("data".toList) = some data
    simp [replyEnvelope, jget, mfind]

/-- Witness for C9: the spec's Milk payload survives the whole encode /
transmit / decode round trip byte-for-byte. -/
theorem request_reply_roundtrip_witness :
    validJ milkPayload = true ∧
    ((decodeJson (encodeJ (requestEnvelope ("create_item".toList) milkPayload))).bind
        (fun env => jget env "payload".toList) = some milkPayload) ∧
    ((decodeJson (encodeJ (replyEnvelope ("success".toList) milkPayload))).bind
        (fun env => jget env "data".toList) = some milkPayload) := by
  refine ⟨by decide, ?_, ?_⟩
  · exact (request_reply_roundtrip ("create_item".toList) milkPayload
      ("success".toList) milkPayload (by decide) (by decide) (by decide) (by decide)).1
  · exact (request_reply_roundtrip ("create_item".toList) milkPayload
      ("success".toList) milkPayload (by decide) (by decide) (by decide) (by decide)).2.2
